import Mathlib

/-!
Verification of the resume-analyzer text pipeline (backend/utils.py).

Texts are modelled as `List Char`.  Python `str.lower()` is modelled
character-wise by `Char.toLower`, which lowercases exactly the ASCII
range; this is the fragment the analysis pipeline depends on, since the
tokenizer keeps only the characters matched by the regex `[a-zA-Z]`
(modelled by `Char.isAlpha`).  Scores are modelled exactly in `ℚ`.
-/

namespace ResumeAnalyzer

/-! ### Character-level facts about `Char.toLower` and `Char.isAlpha` -/

theorem char_le_iff_toNat {c d : Char} : c ≤ d ↔ c.toNat ≤ d.toNat := Iff.rfl

theorem isUpper_iff (c : Char) : c.isUpper = true ↔ 65 ≤ c.toNat ∧ c.toNat ≤ 90 := by
  simp only [Char.isUpper, Bool.and_eq_true, decide_eq_true_eq]
  exact Iff.rfl

theorem isLower_iff (c : Char) : c.isLower = true ↔ 97 ≤ c.toNat ∧ c.toNat ≤ 122 := by
  simp only [Char.isLower, Bool.and_eq_true, decide_eq_true_eq]
  exact Iff.rfl

theorem toNat_ofNat_valid {n : Nat} (h : n.isValidChar) : (Char.ofNat n).toNat = n := by
  simp only [Char.ofNat, dif_pos h, Char.ofNatAux, Char.toNat, UInt32.toNat]
  simp

/-- On a character that the regex `[a-zA-Z]` rejects, `str.lower` is the identity. -/
theorem toLower_of_not_isAlpha {c : Char} (h : ¬ c.isAlpha = true) : Char.toLower c = c := by
  have hu : ¬ c.isUpper = true := by
    intro hup
    exact h (by simp [Char.isAlpha, hup])
  rw [isUpper_iff] at hu
  unfold Char.toLower
  rw [if_neg hu]

/-- Lower-case characters are fixed by `str.lower`. -/
theorem toLower_of_isLower {c : Char} (h : c.isLower = true) : Char.toLower c = c := by
  rw [isLower_iff] at h
  unfold Char.toLower
  rw [if_neg]
  omega

/-- An upper-case character is sent 32 code points up, into the lower-case range. -/
theorem toLower_of_isUpper {c : Char} (h : c.isUpper = true) :
    (Char.toLower c).toNat = c.toNat + 32 := by
  rw [isUpper_iff] at h
  unfold Char.toLower
  rw [if_pos h]
  exact toNat_ofNat_valid (Or.inl (by omega))

/-- If the lowercased character is alphabetic then it is in fact lower case. -/
theorem isLower_toLower_of_isAlpha {c : Char} (h : (Char.toLower c).isAlpha = true) :
    (Char.toLower c).isLower = true := by
  by_cases hup : c.isUpper = true
  · rw [isLower_iff, toLower_of_isUpper hup]
    rw [isUpper_iff] at hup
    omega
  · have hfix : Char.toLower c = c := by
      unfold Char.toLower
      rw [if_neg]
      rw [isUpper_iff] at hup
      exact hup
    rw [hfix] at h ⊢
    rcases (Bool.or_eq_true _ _).mp (by simpa [Char.isAlpha] using h) with h' | h'
    · exact absurd h' hup
    · exact h'

/-! ### The tokenizer: `_tokenize(text) = re.findall("[a-zA-Z]+", text.lower())`

`alphaRuns l` lists the maximal runs of characters satisfying
`Char.isAlpha` (the regex class `[a-zA-Z]`), in order. -/

def consRun (c : Char) : List (List Char) → List (List Char)
  | r :: rs => (c :: r) :: rs
  | [] => [[c]]

def headAlpha : List Char → Bool
  | d :: _ => d.isAlpha
  | [] => false

def alphaRuns : List Char → List (List Char)
  | [] => []
  | c :: cs =>
    if c.isAlpha then
      if headAlpha cs then consRun c (alphaRuns cs) else [c] :: alphaRuns cs
    else alphaRuns cs

theorem alphaRuns_nil : alphaRuns [] = [] := rfl

theorem alphaRuns_cons (c : Char) (cs : List Char) :
    alphaRuns (c :: cs) =
      if c.isAlpha then
        if headAlpha cs then consRun c (alphaRuns cs) else [c] :: alphaRuns cs
      else alphaRuns cs := rfl

/-- `_tokenize` from utils.py: lowercase, then take the `[a-zA-Z]+` matches. -/
def _tokenize (text : List Char) : List (List Char) :=
  alphaRuns (text.map Char.toLower)

/-- If the head character is alphabetic, the first run starts with it. -/
theorem alphaRuns_cons_alpha (c : Char) (cs : List Char) (h : c.isAlpha = true) :
    ∃ t rs, alphaRuns (c :: cs) = (c :: t) :: rs := by
  rw [alphaRuns_cons, if_pos h]
  by_cases hh : headAlpha cs = true
  · rw [if_pos hh]
    rcases alphaRuns cs with _ | ⟨r, rs⟩
    · exact ⟨[], [], rfl⟩
    · exact ⟨r, rs, rfl⟩
  · rw [if_neg hh]
    exact ⟨[], alphaRuns cs, rfl⟩

/-- A non-alphabetic head character is discarded. -/
theorem alphaRuns_cons_not_alpha (c : Char) (cs : List Char) (h : ¬ c.isAlpha = true) :
    alphaRuns (c :: cs) = alphaRuns cs := by
  rw [alphaRuns_cons, if_neg h]

/-- Every token produced by `alphaRuns` is nonempty and purely alphabetic. -/
theorem alphaRuns_mem (l : List Char) : ∀ t ∈ alphaRuns l, t ≠ [] ∧ ∀ c ∈ t, c.isAlpha = true := by
  induction l with
  | nil => intro t ht; simp [alphaRuns] at ht
  | cons c cs ih =>
    intro t ht
    by_cases hc : c.isAlpha = true
    · rw [alphaRuns_cons, if_pos hc] at ht
      by_cases hh : headAlpha cs = true
      · rw [if_pos hh] at ht
        rcases hr : alphaRuns cs with _ | ⟨r, rs⟩
        · rw [hr] at ht
          simp only [consRun, List.mem_singleton] at ht
          subst ht
          exact ⟨by simp, by intro x hx; simp at hx; subst hx; exact hc⟩
        · rw [hr] at ht
          simp only [consRun] at ht
          rcases List.mem_cons.mp ht with h1 | h1
          · subst h1
            have hrmem := ih r (by rw [hr]; exact List.mem_cons_self r rs)
            refine ⟨by simp, ?_⟩
            intro x hx
            rcases List.mem_cons.mp hx with h2 | h2
            · subst h2; exact hc
            · exact hrmem.2 x h2
          · exact ih t (by rw [hr]; exact List.mem_cons_of_mem r h1)
      · rw [if_neg hh] at ht
        rcases List.mem_cons.mp ht with h1 | h1
        · subst h1
          exact ⟨by simp, by intro x hx; simp at hx; subst hx; exact hc⟩
        · exact ih t h1
    · rw [alphaRuns_cons_not_alpha c cs hc] at ht
      exact ih t ht

theorem headAlpha_append_sep (a b : List Char) (c : Char) (hc : ¬ c.isAlpha = true) :
    headAlpha (a ++ c :: b) = headAlpha a := by
  rcases a with _ | ⟨x, a'⟩
  · simp only [List.nil_append, headAlpha]
    exact (Bool.not_eq_true _).mp hc
  · rfl

theorem consRun_append (x : Char) (l m : List (List Char)) (h : l ≠ []) :
    consRun x (l ++ m) = consRun x l ++ m := by
  rcases l with _ | ⟨r, rs⟩
  · exact absurd rfl h
  · rfl

/-- A non-alphabetic character splits the run decomposition. -/
theorem alphaRuns_append_sep (c : Char) (hc : ¬ c.isAlpha = true) :
    ∀ a b : List Char, alphaRuns (a ++ c :: b) = alphaRuns a ++ alphaRuns b := by
  intro a
  induction a with
  | nil =>
    intro b
    rw [List.nil_append, alphaRuns_cons_not_alpha c b hc, alphaRuns_nil, List.nil_append]
  | cons x a' ih =>
    intro b
    by_cases hx : x.isAlpha = true
    · rw [List.cons_append, alphaRuns_cons, alphaRuns_cons,
        if_pos hx, if_pos hx, headAlpha_append_sep a' b c hc]
      by_cases hh : headAlpha a' = true
      · rw [if_pos hh, if_pos hh, ih b]
        rcases a' with _ | ⟨d, a''⟩
        · simp [headAlpha] at hh
        · have hd : d.isAlpha = true := hh
          obtain ⟨t, rs, hrun⟩ := alphaRuns_cons_alpha d a'' hd
          rw [hrun]
          exact consRun_append x _ _ (by simp)
      · rw [if_neg hh, if_neg hh, ih b]
        rfl
    · rw [List.cons_append, alphaRuns_cons_not_alpha x _ hx, alphaRuns_cons_not_alpha x _ hx]
      exact ih b

/-- A nonempty all-alphabetic list is a single maximal run. -/
theorem alphaRuns_all_alpha :
    ∀ l : List Char, l ≠ [] → (∀ c ∈ l, c.isAlpha = true) → alphaRuns l = [l] := by
  intro l
  induction l with
  | nil => intro h; exact absurd rfl h
  | cons c cs ih =>
    intro _ hall
    have hc : c.isAlpha = true := hall c (List.mem_cons_self c cs)
    rw [alphaRuns_cons, if_pos hc]
    rcases cs with _ | ⟨d, cs'⟩
    · rfl
    · have hd : headAlpha (d :: cs') = true := hall d (by simp)
      rw [if_pos hd, ih (by simp) (fun x hx => hall x (List.mem_cons_of_mem c hx))]
      rfl

/-- When the list starts with an alphabetic character, the first run is a prefix. -/
theorem alphaRuns_head_prefix :
    ∀ l : List Char, headAlpha l = true → ∃ t rs, alphaRuns l = t :: rs ∧ t <+: l := by
  intro l
  induction l with
  | nil => intro h; simp [headAlpha] at h
  | cons d cs ih =>
    intro h
    have hd : d.isAlpha = true := h
    rw [alphaRuns_cons, if_pos hd]
    by_cases hh : headAlpha cs = true
    · obtain ⟨t, rs, hrun, hpre⟩ := ih hh
      rw [if_pos hh, hrun]
      exact ⟨d :: t, rs, rfl, by rw [List.cons_prefix_cons]; exact ⟨rfl, hpre⟩⟩
    · rw [if_neg hh]
      exact ⟨[d], alphaRuns cs, rfl,
        by rw [List.cons_prefix_cons]; exact ⟨rfl, List.nil_prefix⟩⟩

/-- Every run is a contiguous substring of the input. -/
theorem alphaRuns_run_contig : ∀ l : List Char, ∀ t ∈ alphaRuns l, t <:+: l := by
  intro l
  induction l with
  | nil => intro t ht; simp [alphaRuns] at ht
  | cons c cs ih =>
    intro t ht
    by_cases hc : c.isAlpha = true
    · rw [alphaRuns_cons, if_pos hc] at ht
      by_cases hh : headAlpha cs = true
      · rw [if_pos hh] at ht
        obtain ⟨t', rs, hrun, hpre⟩ := alphaRuns_head_prefix cs hh
        rw [hrun] at ht
        simp only [consRun] at ht
        rcases List.mem_cons.mp ht with h1 | h1
        · subst h1
          refine List.IsPrefix.isInfix ?_
          rw [List.cons_prefix_cons]
          exact ⟨rfl, hpre⟩
        · exact List.infix_cons (ih t (by rw [hrun]; exact List.mem_cons_of_mem t' h1))
      · rw [if_neg hh] at ht
        rcases List.mem_cons.mp ht with h1 | h1
        · subst h1
          exact List.IsPrefix.isInfix (by rw [List.cons_prefix_cons]; exact ⟨rfl, List.nil_prefix⟩)
        · exact List.infix_cons (ih t h1)
    · rw [alphaRuns_cons_not_alpha c cs hc] at ht
      exact List.infix_cons (ih t ht)

/-! ### `_tokenize`-level consequences -/

/-- Inserting a non-alphabetic character acts purely as a token separator. -/
theorem tokenize_append_sep (c : Char) (hc : ¬ c.isAlpha = true) (a b : List Char) :
    _tokenize (a ++ c :: b) = _tokenize a ++ _tokenize b := by
  unfold _tokenize
  rw [List.map_append, List.map_cons, toLower_of_not_isAlpha hc]
  exact alphaRuns_append_sep c hc _ _

/-- Tokens are nonempty lists of lower-case ASCII letters. -/
theorem tokenize_mem (s : List Char) :
    ∀ t ∈ _tokenize s, t ≠ [] ∧ ∀ c ∈ t, c.isAlpha = true ∧ c.isLower = true := by
  intro t ht
  have h1 := alphaRuns_mem (s.map Char.toLower) t ht
  refine ⟨h1.1, ?_⟩
  intro c hcmem
  have halpha := h1.2 c hcmem
  have hmem : c ∈ s.map Char.toLower := by
    have hsub : List.Sublist t (s.map Char.toLower) := (alphaRuns_run_contig _ t ht).sublist
    exact hsub.subset hcmem
  obtain ⟨c', _, hc'⟩ := List.mem_map.mp hmem
  refine ⟨halpha, ?_⟩
  rw [← hc'] at halpha ⊢
  exact isLower_toLower_of_isAlpha halpha

/-- Lowercasing fixes a token. -/
theorem token_map_toLower (t : List Char) (h : ∀ c ∈ t, c.isLower = true) :
    t.map Char.toLower = t := by
  rw [List.map_congr_left (fun c hc => toLower_of_isLower (h c hc))]
  exact List.map_id t

/-- Every token of `_tokenize s` is a substring of the lowercased input. -/
theorem tokenize_token_contig (s : List Char) (t : List Char) (ht : t ∈ _tokenize s) :
    t.map Char.toLower <:+: s.map Char.toLower := by
  have h := tokenize_mem s t ht
  rw [token_map_toLower t (fun c hc => (h.2 c hc).2)]
  exact alphaRuns_run_contig _ t ht

/-! ### Static dictionaries from utils.py -/

def STOPWORDS : List (List Char) :=
  (["the", "and", "to", "of", "in", "a", "for", "on", "with", "as", "is",
    "are", "was", "were", "be", "been", "it", "that", "this", "by", "at",
    "an", "from", "or", "we", "you", "your", "our", "their", "they", "i",
    "have", "has", "had", "will", "would", "can", "could", "should", "may",
    "if", "but", "about", "into", "up", "out", "than", "more", "so",
    "such"] : List String).map String.data

def SKILL_KEYWORDS : List (List Char) :=
  (["python", "java", "javascript", "typescript", "c++", "c#", "sql",
    "html", "css", "react", "angular", "node", "django", "flask",
    "aws", "azure", "gcp", "docker", "kubernetes", "git", "linux",
    "pandas", "numpy", "tensorflow", "pytorch", "machine learning",
    "data analysis", "communication", "leadership", "project management",
    "problem solving", "teamwork", "time management",
    "analysis"] : List String).map String.data

/-! ### extract_keywords -/

/-- Step 1 of `extract_keywords`: the skill-dictionary entries whose lowercase
form occurs as a substring of the lowercased text, kept verbatim. -/
def skillMatches (text : List Char) : List (List Char) :=
  SKILL_KEYWORDS.filter (fun kw => decide (kw.map Char.toLower <:+: text.map Char.toLower))

/-- The token list of step 2 after dropping stopwords and tokens of length at most 2. -/
def filteredTokens (text : List Char) : List (List Char) :=
  (_tokenize text).filter (fun t => decide (t ∉ STOPWORDS ∧ 2 < t.length))

/-- The keys of a Counter built from `l`: the distinct elements in first-seen order. -/
def firstSeenDedup {α : Type} [DecidableEq α] : List α → List α
  | [] => []
  | a :: l => a :: (firstSeenDedup l).filter (fun b => decide (b ≠ a))

/-- The comparison used by `Counter.most_common`: larger count first. -/
def countGe (l : List (List Char)) (a b : List Char) : Prop := l.count b ≤ l.count a

instance (l : List (List Char)) : DecidableRel (countGe l) := fun _ _ => Nat.decLe _ _

instance (l : List (List Char)) : IsTotal (List Char) (countGe l) :=
  ⟨fun _ _ => Nat.le_total _ _⟩

instance (l : List (List Char)) : IsTrans (List Char) (countGe l) :=
  ⟨fun _ _ _ h1 h2 => Nat.le_trans h2 h1⟩

/-- `Counter(l).most_common(n)`: keys stably sorted by descending count, first `n`.
The keys iterate in first-insertion order, and both `sorted` and `heapq.nlargest`
order equal counts by that iteration order, i.e. the sort is stable. -/
def mostCommon (l : List (List Char)) (n : Nat) : List (List Char) :=
  (List.insertionSort (countGe l) (firstSeenDedup l)).take n

/-- Python string comparison, lexicographic on code points. -/
def lexLeB : List Char → List Char → Bool
  | [], _ => true
  | _ :: _, [] => false
  | a :: as, b :: bs => if a < b then true else if b < a then false else lexLeB as bs

def lexLe (a b : List Char) : Prop := lexLeB a b = true

instance : DecidableRel lexLe := fun a b => inferInstanceAs (Decidable (lexLeB a b = true))

/-- Python `sorted` applied to a set of strings: the distinct elements in
lexicographically ascending order. -/
def pySortedSet (l : List (List Char)) : List (List Char) :=
  List.insertionSort lexLe (firstSeenDedup l)

/-- `extract_keywords text top_n`: the union of the skill-dictionary substring
matches and the `top_n` most frequent filtered tokens, returned as a sorted set. -/
def extract_keywords (text : List Char) (top_n : Nat) : List (List Char) :=
  pySortedSet (skillMatches text ++ mostCommon (filteredTokens text) top_n)

/-! ### compute_ats_score -/

/-- `_filter_tokens`: remove stopwords and very short words from a set of tokens. -/
def _filter_tokens (tokens : Finset (List Char)) : Finset (List Char) :=
  tokens.filter (fun t => t ∉ STOPWORDS ∧ 2 < t.length)

/-- The filtered unique-token set of a text (`_filter_tokens(set(_tokenize(text)))`). -/
def filteredTokenSet (text : List Char) : Finset (List Char) :=
  _filter_tokens (_tokenize text).toFinset

/-- Two-decimal rounding, `round(score, 2)`, modelled exactly over `ℚ`.
The properties proved below hold for either tie-breaking mode of rounding. -/
def round2 (q : ℚ) : ℚ := (round (q * 100) : ℤ) / 100

/-- `compute_ats_score`: the percentage of unique filtered job-description
tokens that also appear among the filtered resume tokens. -/
def compute_ats_score (resume_text job_description : List Char) : ℚ :=
  if filteredTokenSet job_description = ∅ then 0
  else
    round2 (((filteredTokenSet job_description ∩ filteredTokenSet resume_text).card : ℚ) /
      ((filteredTokenSet job_description).card : ℚ) * 100)

/-! ### generate_suggestions -/

/-- The line-boundary characters recognised by `str.splitlines`. -/
def isLineBoundary (c : Char) : Bool :=
  c ∈ ['\n', '\x0b', '\x0c', '\r', '\x1c', '\x1d', '\x1e', '\x85', '\u2028', '\u2029']

def consLine (c : Char) : List (List Char) → List (List Char)
  | l :: ls => (c :: l) :: ls
  | [] => [[c]]

/-- `str.splitlines`: split at line boundaries, treating a CRLF pair as one
boundary, with no trailing empty line. -/
def pySplitlines : List Char → List (List Char)
  | [] => []
  | '\r' :: '\n' :: cs => [] :: pySplitlines cs
  | c :: cs =>
    if isLineBoundary c then [] :: pySplitlines cs
    else consLine c (pySplitlines cs)

/-- The whitespace characters stripped by `str.strip()` (the ASCII range plus
NEL and NBSP; further Unicode space characters behave the same way). -/
def pyIsSpace (c : Char) : Bool :=
  c ∈ [' ', '\t', '\n', '\x0b', '\x0c', '\r', '\x1c', '\x1d', '\x1e', '\x1f', '\x85', '\xa0']

def pyStrip (l : List Char) : List Char :=
  ((l.dropWhile pyIsSpace).reverse.dropWhile pyIsSpace).reverse

/-- Does the stripped line start with one of the bullet markers. -/
def isBulletStart : List Char → Bool
  | c :: _ => c = '-' || c = '*' || c = '\u2022'
  | [] => false

/-- Test used for the quantification hint (re.search of a digit, modelled on
the ASCII decimal digits). -/
def containsDigit (l : List Char) : Bool := l.any Char.isDigit

def quoteChar : Char := Char.ofNat 39

/-- The suggestion built for one bullet line, quoting the stripped line. -/
def mkSuggestion (l : List Char) : List Char :=
  "Consider quantifying this bullet: ".data ++ quoteChar :: (l ++ [quoteChar])

def genericSuggestion : List Char :=
  "Include more action verbs and quantify achievements with numbers and percentages.".data

/-- The stripped bullet lines of the text, in their original order. -/
def bulletLines (resume_text : List Char) : List (List Char) :=
  ((pySplitlines resume_text).map pyStrip).filter isBulletStart

/-- The stripped bullet lines that contain no decimal digit. -/
def digitFreeBullets (resume_text : List Char) : List (List Char) :=
  (bulletLines resume_text).filter (fun l => !containsDigit l)

/-- `generate_suggestions`: one quantification hint per digit-free bullet line,
or the generic advice when there is none. -/
def generate_suggestions (resume_text : List Char) : List (List Char) :=
  let suggestions := (digitFreeBullets resume_text).map mkSuggestion
  if suggestions = [] then [genericSuggestion] else suggestions

/-! ### extract_text -/

/-- The outcome of a call into an external parser or the file system: a
returned value or a raised exception. -/
inductive PyOutcome (α : Type) where
  | ok (a : α)
  | raised

/-- `extract_text`, modelled over the outcomes of its three external actions:
the docx paragraph extraction, the pdf text extraction, and the UTF-8
fallback read.  The extension is lowercased; a docx result is joined with
newlines; an empty pdf result is replaced by the empty string; a raised
exception in a format branch falls through to the raw read, and a raised
raw read yields the empty string. -/
def extract_text (ext : List Char) (docx : PyOutcome (List (List Char)))
    (pdf : PyOutcome (List Char)) (raw : PyOutcome (List Char)) : PyOutcome (List Char) :=
  let formatStep : PyOutcome (Option (List Char)) :=
    if ext.map Char.toLower = ".docx".data then
      match docx with
      | .ok paragraphs => .ok (some (List.intercalate "\n".data paragraphs))
      | .raised => .raised
    else if ext.map Char.toLower = ".pdf".data then
      match pdf with
      | .ok s => .ok (some (if s = [] then [] else s))
      | .raised => .raised
    else .ok none
  match formatStep with
  | .ok (some s) => .ok s
  | _ =>
    match raw with
    | .ok s => .ok s
    | .raised => .ok []

/-! ### Facts about `firstSeenDedup` -/

theorem firstSeenDedup_nil {α : Type} [DecidableEq α] : firstSeenDedup ([] : List α) = [] := rfl

theorem firstSeenDedup_cons {α : Type} [DecidableEq α] (a : α) (l : List α) :
    firstSeenDedup (a :: l) = a :: (firstSeenDedup l).filter (fun b => decide (b ≠ a)) := rfl

theorem mem_firstSeenDedup {α : Type} [DecidableEq α] (l : List α) (x : α) :
    x ∈ firstSeenDedup l ↔ x ∈ l := by
  induction l with
  | nil => simp [firstSeenDedup_nil]
  | cons a l ih =>
    rw [firstSeenDedup_cons]
    simp only [List.mem_cons, List.mem_filter, decide_eq_true_eq]
    constructor
    · rintro (rfl | ⟨hx, _⟩)
      · exact .inl rfl
      · exact .inr (ih.mp hx)
    · rintro (rfl | hx)
      · exact .inl rfl
      · by_cases hxa : x = a
        · exact .inl hxa
        · exact .inr ⟨ih.mpr hx, hxa⟩

theorem nodup_firstSeenDedup {α : Type} [DecidableEq α] (l : List α) :
    (firstSeenDedup l).Nodup := by
  induction l with
  | nil => simp [firstSeenDedup_nil]
  | cons a l ih =>
    rw [firstSeenDedup_cons, List.nodup_cons]
    refine ⟨?_, ih.filter _⟩
    intro hmem
    have h := (List.mem_filter.mp hmem).2
    simp at h

/-- The index of the first occurrence of `x`, as used to speak about encounter
order (`length l` when `x` does not occur). -/
def firstIdx {α : Type} [DecidableEq α] (x : α) : List α → Nat
  | [] => 0
  | a :: l => if a = x then 0 else firstIdx x l + 1

theorem firstIdx_cons {α : Type} [DecidableEq α] (x y : α) (l : List α) :
    firstIdx x (y :: l) = if y = x then 0 else firstIdx x l + 1 := rfl

theorem firstIdx_cons_self {α : Type} [DecidableEq α] (x : α) (l : List α) :
    firstIdx x (x :: l) = 0 := by
  rw [firstIdx_cons, if_pos rfl]

theorem firstIdx_cons_ne {α : Type} [DecidableEq α] {x y : α} (l : List α) (h : y ≠ x) :
    firstIdx x (y :: l) = firstIdx x l + 1 := by
  rw [firstIdx_cons, if_neg h]

/-- In the deduplicated list, earlier position means earlier first occurrence. -/
theorem firstSeenDedup_pair_indexOf {α : Type} [DecidableEq α] :
    ∀ (l : List α) (a b : α), List.Sublist [a, b] (firstSeenDedup l) →
      firstIdx a l < firstIdx b l := by
  intro l
  induction l with
  | nil =>
    intro a b h
    rw [firstSeenDedup_nil] at h
    exact absurd (h.subset (by simp)) (List.not_mem_nil a)
  | cons x l ih =>
    intro a b h
    rw [firstSeenDedup_cons] at h
    cases h with
    | cons _ h' =>
      have haF := h'.subset (show a ∈ [a, b] by simp)
      have hbF := h'.subset (show b ∈ [a, b] by simp)
      have hax : a ≠ x := by simpa using (List.mem_filter.mp haF).2
      have hbx : b ≠ x := by simpa using (List.mem_filter.mp hbF).2
      have hlt := ih a b (h'.trans (List.filter_sublist _))
      rw [firstIdx_cons_ne _ (Ne.symm hax), firstIdx_cons_ne _ (Ne.symm hbx)]
      omega
    | cons₂ _ h' =>
      have hbF := h'.subset (show b ∈ [b] by simp)
      have hbx : b ≠ x := by simpa using (List.mem_filter.mp hbF).2
      rw [firstIdx_cons_self, firstIdx_cons_ne _ (Ne.symm hbx)]
      exact Nat.succ_pos _

/-- In a duplicate-free list, a pair sublist orders the positions. -/
theorem nodup_pair_indexOf {α : Type} [DecidableEq α] :
    ∀ (l : List α) (a b : α), l.Nodup → List.Sublist [a, b] l →
      firstIdx a l < firstIdx b l := by
  intro l
  induction l with
  | nil =>
    intro a b _ h
    exact absurd (h.subset (by simp)) (List.not_mem_nil a)
  | cons x l ih =>
    intro a b hnd h
    obtain ⟨hxl, hndl⟩ := List.nodup_cons.mp hnd
    cases h with
    | cons _ h' =>
      have ha : a ∈ l := h'.subset (by simp)
      have hb : b ∈ l := h'.subset (by simp)
      have hax : a ≠ x := fun he => hxl (he ▸ ha)
      have hbx : b ≠ x := fun he => hxl (he ▸ hb)
      have hlt := ih a b hndl h'
      rw [firstIdx_cons_ne _ (Ne.symm hax), firstIdx_cons_ne _ (Ne.symm hbx)]
      omega
    | cons₂ _ h' =>
      have hb : b ∈ l := h'.subset (by simp)
      have hbx : b ≠ x := fun he => hxl (he ▸ hb)
      rw [firstIdx_cons_self, firstIdx_cons_ne _ (Ne.symm hbx)]
      exact Nat.succ_pos _

/-- Two distinct members of a list occur as a pair sublist in one of the two orders. -/
theorem pair_sublist_of_mem {α : Type} [DecidableEq α] :
    ∀ (l : List α) (a b : α), a ∈ l → b ∈ l → a ≠ b →
      List.Sublist [a, b] l ∨ List.Sublist [b, a] l := by
  intro l
  induction l with
  | nil => intro a b ha _ _; exact absurd ha (List.not_mem_nil a)
  | cons x l ih =>
    intro a b ha hb hne
    by_cases hax : a = x
    · left
      subst hax
      have hbl : b ∈ l := by
        rcases List.mem_cons.mp hb with h | h
        · exact absurd h.symm hne
        · exact h
      exact List.Sublist.cons₂ a (List.singleton_sublist.mpr hbl)
    · by_cases hbx : b = x
      · right
        subst hbx
        have hal : a ∈ l := by
          rcases List.mem_cons.mp ha with h | h
          · exact absurd h hax
          · exact h
        exact List.Sublist.cons₂ b (List.singleton_sublist.mpr hal)
      · have hal : a ∈ l := by
          rcases List.mem_cons.mp ha with h | h
          · exact absurd h hax
          · exact h
        have hbl : b ∈ l := by
          rcases List.mem_cons.mp hb with h | h
          · exact absurd h hbx
          · exact h
        rcases ih a b hal hbl hne with h | h
        · exact .inl (List.Sublist.cons x h)
        · exact .inr (List.Sublist.cons x h)

/-! ### Facts about the lexicographic comparison -/

theorem lexLeB_cons (a b : Char) (as bs : List Char) :
    lexLeB (a :: as) (b :: bs) =
      if a < b then true else if b < a then false else lexLeB as bs := rfl

theorem lexLe_total : ∀ a b : List Char, lexLe a b ∨ lexLe b a
  | [], _ => .inl rfl
  | _ :: _, [] => .inr rfl
  | a :: as, b :: bs => by
    unfold lexLe
    rw [lexLeB_cons, lexLeB_cons]
    rcases lt_trichotomy a b with h | h | h
    · left
      rw [if_pos h]
    · subst h
      simp only [if_neg (lt_irrefl a)]
      exact lexLe_total as bs
    · right
      rw [if_pos h]

theorem lexLe_trans : ∀ a b c : List Char, lexLe a b → lexLe b c → lexLe a c
  | [], _, _, _, _ => rfl
  | _ :: _, [], _, h, _ => absurd h (by simp [lexLe, lexLeB])
  | _ :: _, _ :: _, [], _, h => absurd h (by simp [lexLe, lexLeB])
  | a :: as, b :: bs, c :: cs, h1, h2 => by
    unfold lexLe at h1 h2 ⊢
    rw [lexLeB_cons] at h1 h2 ⊢
    by_cases hab : a < b
    · by_cases hbc : b < c
      · rw [if_pos (lt_trans hab hbc)]
      · have hcb : ¬ c < b := by
          intro hcb
          rw [if_neg hbc, if_pos hcb] at h2
          exact Bool.false_ne_true h2
        have hbceq : b = c := le_antisymm (not_lt.mp hcb) (not_lt.mp hbc)
        subst hbceq
        rw [if_pos hab]
    · by_cases hba : b < a
      · rw [if_neg hab, if_pos hba] at h1
        exact absurd h1 Bool.false_ne_true
      · have habeq : a = b := le_antisymm (not_lt.mp hba) (not_lt.mp hab)
        subst habeq
        rw [if_neg hab, if_neg hba] at h1
        by_cases hac : a < c
        · rw [if_pos hac]
        · by_cases hca : c < a
          · rw [if_neg hac, if_pos hca] at h2
            exact absurd h2 Bool.false_ne_true
          · rw [if_neg hac, if_neg hca] at h2 ⊢
            exact lexLe_trans as bs cs h1 h2

instance : IsTotal (List Char) lexLe := ⟨lexLe_total⟩

instance : IsTrans (List Char) lexLe := ⟨lexLe_trans⟩

/-! ### Facts about `pySortedSet` -/

theorem mem_pySortedSet (l : List (List Char)) (x : List Char) :
    x ∈ pySortedSet l ↔ x ∈ l := by
  unfold pySortedSet
  rw [(List.perm_insertionSort lexLe _).mem_iff, mem_firstSeenDedup]

theorem nodup_pySortedSet (l : List (List Char)) : (pySortedSet l).Nodup :=
  (List.perm_insertionSort lexLe _).nodup_iff.mpr (nodup_firstSeenDedup l)

theorem sorted_pySortedSet (l : List (List Char)) : (pySortedSet l).Pairwise lexLe :=
  List.sorted_insertionSort lexLe _

/-! ### Facts about `mostCommon` -/

theorem mem_mostCommon_subset (l : List (List Char)) (n : Nat) (a : List Char)
    (ha : a ∈ mostCommon l n) : a ∈ firstSeenDedup l :=
  (List.perm_insertionSort (countGe l) _).subset ((List.take_sublist n _).subset ha)

/-- Selected entries of `most_common` beat unselected ones: strictly larger or
equal count, and on equal counts the selected entry was earlier in the key order. -/
theorem mostCommon_spec (l : List (List Char)) (n : Nat) (a b : List Char)
    (ha : a ∈ mostCommon l n) (hb : b ∈ firstSeenDedup l) (hbn : b ∉ mostCommon l n) :
    l.count b ≤ l.count a ∧
      (l.count a = l.count b → List.Sublist [a, b] (firstSeenDedup l)) := by
  have hperm : (List.insertionSort (countGe l) (firstSeenDedup l)).Perm (firstSeenDedup l) :=
    List.perm_insertionSort _ _
  have hnds : (List.insertionSort (countGe l) (firstSeenDedup l)).Nodup :=
    hperm.nodup_iff.mpr (nodup_firstSeenDedup l)
  have hbs : b ∈ List.insertionSort (countGe l) (firstSeenDedup l) := hperm.mem_iff.mpr hb
  have hbdrop : b ∈ (List.insertionSort (countGe l) (firstSeenDedup l)).drop n := by
    have hsplit := List.take_append_drop n (List.insertionSort (countGe l) (firstSeenDedup l))
    rcases List.mem_append.mp (by rw [hsplit]; exact hbs) with h | h
    · exact absurd h hbn
    · exact h
  have hpair : List.Sublist [a, b] (List.insertionSort (countGe l) (firstSeenDedup l)) := by
    have h1 : List.Sublist [a] ((List.insertionSort (countGe l) (firstSeenDedup l)).take n) :=
      List.singleton_sublist.mpr ha
    have h2 : List.Sublist [b] ((List.insertionSort (countGe l) (firstSeenDedup l)).drop n) :=
      List.singleton_sublist.mpr hbdrop
    have h3 := List.Sublist.append h1 h2
    rwa [List.take_append_drop] at h3
  have hsorted : (List.insertionSort (countGe l) (firstSeenDedup l)).Pairwise (countGe l) :=
    List.sorted_insertionSort (countGe l) _
  have hcount : countGe l a b := by
    have := hsorted.sublist hpair
    exact List.rel_of_pairwise_cons this (List.mem_singleton_self b)
  refine ⟨hcount, ?_⟩
  intro htie
  have hne : a ≠ b := by
    intro he
    subst he
    have := nodup_pair_indexOf _ a a hnds hpair
    omega
  rcases pair_sublist_of_mem (firstSeenDedup l) a b (mem_mostCommon_subset l n a ha) hb hne
    with h | h
  · exact h
  · exfalso
    have hba : List.Sublist [b, a] (List.insertionSort (countGe l) (firstSeenDedup l)) :=
      List.pair_sublist_insertionSort (show countGe l b a from le_of_eq htie) h
    have h1 := nodup_pair_indexOf _ a b hnds hpair
    have h2 := nodup_pair_indexOf _ b a hnds hba
    omega

/-! ### Facts about `round2` and the score -/

theorem round2_mono {x y : ℚ} (h : x ≤ y) : round2 x ≤ round2 y := by
  unfold round2
  have h1 : round (x * 100) ≤ round (y * 100) := by
    rw [round_eq, round_eq]
    exact Int.floor_mono (by linarith)
  rw [div_le_div_iff_of_pos_right (by norm_num : (0 : ℚ) < 100)]
  exact_mod_cast h1

theorem round2_zero : round2 0 = 0 := by
  unfold round2
  norm_num

theorem round2_hundred : round2 100 = 100 := by
  unfold round2
  have h : ((100 : ℚ) * 100) = ((10000 : ℤ) : ℚ) := by norm_num
  rw [h, round_intCast]
  norm_num

/-- A space acts as a separator for the filtered token sets. -/
theorem filteredTokenSet_append_sep (a b : List Char) :
    filteredTokenSet (a ++ ' ' :: b) = filteredTokenSet a ∪ filteredTokenSet b := by
  unfold filteredTokenSet _filter_tokens
  rw [tokenize_append_sep ' ' (by decide) a b, List.toFinset_append, Finset.filter_union]

theorem compute_ats_score_of_empty (r j : List Char) (h : filteredTokenSet j = ∅) :
    compute_ats_score r j = 0 := by
  unfold compute_ats_score
  rw [if_pos h]

theorem compute_ats_score_of_ne_empty (r j : List Char) (h : ¬ filteredTokenSet j = ∅) :
    compute_ats_score r j =
      round2 (((filteredTokenSet j ∩ filteredTokenSet r).card : ℚ) /
        ((filteredTokenSet j).card : ℚ) * 100) := by
  unfold compute_ats_score
  rw [if_neg h]

/-! ### Claim theorems -/

/-- C1: every core analysis stage is total.  `extract_text` yields a string
(never a raised exception) for every extension and every combination of
external outcomes, and yields the empty string when the format parse and the
UTF-8 fallback read both raise; the three pure stages return a value on
every input. -/
theorem claim_C1 :
    (∀ (ext : List Char) (docx : PyOutcome (List (List Char)))
        (pdf raw : PyOutcome (List Char)),
      ∃ s, extract_text ext docx pdf raw = PyOutcome.ok s) ∧
    (∀ ext : List Char, extract_text ext .raised .raised .raised = PyOutcome.ok []) ∧
    (∀ (t : List Char) (n : Nat), ∃ ks, extract_keywords t n = ks) ∧
    (∀ r j : List Char, ∃ q, compute_ats_score r j = q) ∧
    (∀ r : List Char, ∃ ss, generate_suggestions r = ss) := by
  refine ⟨?_, ?_, fun t n => ⟨_, rfl⟩, fun r j => ⟨_, rfl⟩, fun r => ⟨_, rfl⟩⟩
  · intro ext docx pdf raw
    unfold extract_text
    by_cases h1 : ext.map Char.toLower = ".docx".data <;>
      by_cases h2 : ext.map Char.toLower = ".pdf".data <;>
      rcases docx with d | _ <;> rcases pdf with p | _ <;> rcases raw with r' | _ <;>
      simp only [h1, h2, if_true, if_false, reduceIte, ite_self] <;>
      exact ⟨_, rfl⟩
  · intro ext
    unfold extract_text
    by_cases h1 : ext.map Char.toLower = ".docx".data <;>
      by_cases h2 : ext.map Char.toLower = ".pdf".data <;>
      simp only [h1, h2, if_true, if_false, reduceIte, ite_self]

/-- C2: if the filtered job-description token set is empty the score is exactly
0, and in particular the score against the empty job description is 0. -/
theorem claim_C2 (resume job : List Char) :
    (filteredTokenSet job = ∅ → compute_ats_score resume job = 0) ∧
    compute_ats_score resume [] = 0 := by
  refine ⟨compute_ats_score_of_empty resume job, ?_⟩
  apply compute_ats_score_of_empty
  rfl

theorem claim_C2_witness : compute_ats_score "python".data "the of".data = 0 :=
  (claim_C2 "python".data "the of".data).1 (by decide)

/-- C3: a job description with at least one filtered token scores exactly 100
against itself. -/
theorem claim_C3 (j : List Char) (h : filteredTokenSet j ≠ ∅) :
    compute_ats_score j j = 100 := by
  rw [compute_ats_score_of_ne_empty j j h, Finset.inter_self]
  have hpos : 0 < ((filteredTokenSet j).card : ℚ) := by
    have h2 : 0 < (filteredTokenSet j).card :=
      Finset.card_pos.mpr (Finset.nonempty_iff_ne_empty.mpr h)
    exact_mod_cast h2
  rw [div_self (ne_of_gt hpos), one_mul, round2_hundred]

theorem claim_C3_witness : compute_ats_score "python".data "python".data = 100 :=
  claim_C3 "python".data (by decide)

/-- C5: the tokenizer lowercases and returns exactly the maximal runs of ASCII
alphabetic characters: every token is a nonempty string of lower-case ASCII
letters, every non-alphabetic character is purely a separator, a nonempty
alphabetic stretch is one token, and the two spec examples hold. -/
theorem claim_C5 (s : List Char) :
    (∀ t ∈ _tokenize s, t ≠ [] ∧ ∀ c ∈ t, c.isAlpha = true ∧ c.isLower = true) ∧
    (∀ c : Char, ¬ c.isAlpha = true → ∀ a b : List Char,
      _tokenize (a ++ c :: b) = _tokenize a ++ _tokenize b) ∧
    (∀ a : List Char, a ≠ [] → (∀ c ∈ a, (Char.toLower c).isAlpha = true) →
      _tokenize a = [a.map Char.toLower]) ∧
    _tokenize "C++".data = ["c".data] ∧ _tokenize "2024".data = [] := by
  refine ⟨tokenize_mem s, ?_, ?_, by decide, by decide⟩
  · intro c hc a b
    exact tokenize_append_sep c hc a b
  · intro a ha hall
    unfold _tokenize
    apply alphaRuns_all_alpha
    · intro he
      exact ha (List.map_eq_nil_iff.mp he)
    · intro c hcmem
      obtain ⟨c', hc', rfl⟩ := List.mem_map.mp hcmem
      exact hall c' hc'

theorem claim_C5_witness :
    _tokenize "Data 2024".data = _tokenize "Data".data ++ _tokenize "2024".data ∧
    _tokenize "Data".data = ["Data".data.map Char.toLower] := by
  constructor
  · have h := (claim_C5 []).2.1 ' ' (by decide) "Data".data "2024".data
    have he : ("Data 2024".data : List Char) = "Data".data ++ ' ' :: "2024".data := by decide
    rw [he]
    exact h
  · exact (claim_C5 []).2.2.1 "Data".data (by decide) (by decide)

/-- C9: one suggestion per digit-free bullet line, quoting the stripped line in
source order, and exactly the generic fallback when there is no such line; the
result is never empty. -/
theorem claim_C9 (resume : List Char) :
    generate_suggestions resume ≠ [] ∧
    generate_suggestions resume =
      (if digitFreeBullets resume = [] then [genericSuggestion]
       else (digitFreeBullets resume).map mkSuggestion) := by
  unfold generate_suggestions
  rcases hd : digitFreeBullets resume with _ | ⟨l, ls⟩
  · simp
  · simp

/-- C10: the analysis is case-insensitive: strings equal after lowercasing
tokenize identically, extract the same keywords, and score identically in
either argument position. -/
theorem claim_C10 (s s' : List Char) (h : s.map Char.toLower = s'.map Char.toLower) :
    _tokenize s' = _tokenize s ∧
    (∀ n, extract_keywords s' n = extract_keywords s n) ∧
    (∀ r, compute_ats_score r s' = compute_ats_score r s ∧
      compute_ats_score s' r = compute_ats_score s r) := by
  have htok : _tokenize s' = _tokenize s := by
    unfold _tokenize
    rw [h]
  have hfts : filteredTokenSet s' = filteredTokenSet s := by
    unfold filteredTokenSet
    rw [htok]
  refine ⟨htok, ?_, ?_⟩
  · intro n
    unfold extract_keywords skillMatches filteredTokens
    rw [h, htok]
  · intro r
    constructor
    · unfold compute_ats_score
      rw [hfts]
    · unfold compute_ats_score
      rw [hfts]

theorem claim_C10_witness :
    extract_keywords "PyThOn RoCkS".data 10 = extract_keywords "python rocks".data 10 :=
  ((claim_C10 "python rocks".data "PyThOn RoCkS".data (by decide)).2.1) 10

/-- C6: a skill-dictionary entry appears verbatim in the result of
`extract_keywords` if and only if its lowercase form occurs as a substring of
the lowercased text, independently of `top_n`. -/
theorem claim_C6 (text kw : List Char) (n : Nat) (hkw : kw ∈ SKILL_KEYWORDS) :
    kw ∈ extract_keywords text n ↔ kw.map Char.toLower <:+: text.map Char.toLower := by
  unfold extract_keywords
  rw [mem_pySortedSet, List.mem_append]
  constructor
  · rintro (h | h)
    · exact of_decide_eq_true (List.mem_filter.mp h).2
    · have hfsd := mem_mostCommon_subset _ n kw h
      have htok : kw ∈ filteredTokens text := (mem_firstSeenDedup _ kw).mp hfsd
      have htok2 : kw ∈ _tokenize text := (List.mem_filter.mp htok).1
      exact tokenize_token_contig text kw htok2
  · intro h
    left
    exact List.mem_filter.mpr ⟨hkw, decide_eq_true h⟩

theorem claim_C6_witness :
    "python".data ∈ extract_keywords "We use Python".data 10 :=
  (claim_C6 "We use Python".data "python".data 10 (by decide)).mpr (by decide)

/-- C7: the tokens selected in step 2 are the most frequent by count among the
distinct filtered tokens, and a tie between a selected and an unselected token
is always resolved in favour of the one first encountered in the token list. -/
theorem claim_C7 (text : List Char) (n : Nat) (a b : List Char)
    (ha : a ∈ mostCommon (filteredTokens text) n)
    (hb : b ∈ firstSeenDedup (filteredTokens text))
    (hbn : b ∉ mostCommon (filteredTokens text) n) :
    (filteredTokens text).count b ≤ (filteredTokens text).count a ∧
    ((filteredTokens text).count a = (filteredTokens text).count b →
      firstIdx a (filteredTokens text) < firstIdx b (filteredTokens text)) := by
  obtain ⟨h1, h2⟩ := mostCommon_spec (filteredTokens text) n a b ha hb hbn
  exact ⟨h1, fun htie => firstSeenDedup_pair_indexOf _ a b (h2 htie)⟩

theorem claim_C7_witness :
    (filteredTokens "xxx yyy zzz".data).count "zzz".data ≤
      (filteredTokens "xxx yyy zzz".data).count "yyy".data ∧
    ((filteredTokens "xxx yyy zzz".data).count "yyy".data =
        (filteredTokens "xxx yyy zzz".data).count "zzz".data →
      firstIdx "yyy".data (filteredTokens "xxx yyy zzz".data) <
        firstIdx "zzz".data (filteredTokens "xxx yyy zzz".data)) :=
  claim_C7 "xxx yyy zzz".data 2 "yyy".data "zzz".data (by decide) (by decide) (by decide)

/-- C8: the keyword list is deduplicated, strictly lexicographically ascending,
and its members are exactly the union of the step-1 skill matches and the
step-2 frequent tokens. -/
theorem claim_C8 (text : List Char) (n : Nat) :
    (extract_keywords text n).Nodup ∧
    (extract_keywords text n).Pairwise (fun a b => lexLe a b ∧ a ≠ b) ∧
    ∀ x, x ∈ extract_keywords text n ↔
      x ∈ skillMatches text ∨ x ∈ mostCommon (filteredTokens text) n := by
  refine ⟨nodup_pySortedSet _, ?_, ?_⟩
  · have h1 := sorted_pySortedSet (skillMatches text ++ mostCommon (filteredTokens text) n)
    have h2 : (pySortedSet (skillMatches text ++ mostCommon (filteredTokens text) n)).Pairwise
        (fun a b => a ≠ b) := nodup_pySortedSet _
    exact h1.and h2
  · intro x
    unfold extract_keywords
    rw [mem_pySortedSet, List.mem_append]

/-- C4: the two-decimal score is monotone: adding job-description tokens that
are absent from the resume cannot raise it, and adding resume tokens that are
missing job tokens cannot lower it. -/
theorem claim_C4 (resume job extra : List Char) :
    ((∀ t ∈ filteredTokenSet extra, t ∉ filteredTokenSet resume) →
      compute_ats_score resume (job ++ ' ' :: extra) ≤ compute_ats_score resume job) ∧
    ((∀ t ∈ filteredTokenSet extra,
        t ∈ filteredTokenSet job ∧ t ∉ filteredTokenSet resume) →
      compute_ats_score resume job ≤ compute_ats_score (resume ++ ' ' :: extra) job) := by
  constructor
  · intro hdisj
    have hinter : filteredTokenSet (job ++ ' ' :: extra) ∩ filteredTokenSet resume
        = filteredTokenSet job ∩ filteredTokenSet resume := by
      rw [filteredTokenSet_append_sep, Finset.union_inter_distrib_right]
      have he : filteredTokenSet extra ∩ filteredTokenSet resume = ∅ := by
        rw [Finset.eq_empty_iff_forall_not_mem]
        intro t ht
        obtain ⟨ht1, ht2⟩ := Finset.mem_inter.mp ht
        exact hdisj t ht1 ht2
      rw [he, Finset.union_empty]
    by_cases hj' : filteredTokenSet (job ++ ' ' :: extra) = ∅
    · have hj : filteredTokenSet job = ∅ := by
        rw [filteredTokenSet_append_sep] at hj'
        exact (Finset.union_eq_empty.mp hj').1
      rw [compute_ats_score_of_empty _ _ hj', compute_ats_score_of_empty _ _ hj]
    · by_cases hj : filteredTokenSet job = ∅
      · rw [compute_ats_score_of_empty _ _ hj,
          compute_ats_score_of_ne_empty _ _ hj', hinter, hj, Finset.empty_inter]
        simp [round2_zero]
      · rw [compute_ats_score_of_ne_empty _ _ hj', compute_ats_score_of_ne_empty _ _ hj,
          hinter]
        apply round2_mono
        apply mul_le_mul_of_nonneg_right _ (by norm_num : (0 : ℚ) ≤ 100)
        have hsub : filteredTokenSet job ⊆ filteredTokenSet (job ++ ' ' :: extra) := by
          rw [filteredTokenSet_append_sep]
          exact Finset.subset_union_left
        have hle : (filteredTokenSet job).card ≤
            (filteredTokenSet (job ++ ' ' :: extra)).card := Finset.card_le_card hsub
        have hposj : 0 < ((filteredTokenSet job).card : ℚ) := by
          have hc : 0 < (filteredTokenSet job).card :=
            Finset.card_pos.mpr (Finset.nonempty_iff_ne_empty.mpr hj)
          exact_mod_cast hc
        gcongr
  · intro _
    by_cases hj : filteredTokenSet job = ∅
    · rw [compute_ats_score_of_empty _ _ hj, compute_ats_score_of_empty _ _ hj]
    · rw [compute_ats_score_of_ne_empty _ _ hj, compute_ats_score_of_ne_empty _ _ hj]
      apply round2_mono
      apply mul_le_mul_of_nonneg_right _ (by norm_num : (0 : ℚ) ≤ 100)
      have hsub : filteredTokenSet resume ⊆ filteredTokenSet (resume ++ ' ' :: extra) := by
        rw [filteredTokenSet_append_sep]
        exact Finset.subset_union_left
      have hmono : (filteredTokenSet job ∩ filteredTokenSet resume).card ≤
          (filteredTokenSet job ∩ filteredTokenSet (resume ++ ' ' :: extra)).card :=
        Finset.card_le_card (Finset.inter_subset_inter (Finset.Subset.refl _) hsub)
      have hposj : 0 < ((filteredTokenSet job).card : ℚ) := by
        have hc : 0 < (filteredTokenSet job).card :=
          Finset.card_pos.mpr (Finset.nonempty_iff_ne_empty.mpr hj)
        exact_mod_cast hc
      rw [div_le_div_iff_of_pos_right hposj]
      exact_mod_cast hmono

theorem claim_C4_witness :
    compute_ats_score "python docker".data ("python stack".data ++ ' ' :: "kafka".data) ≤
      compute_ats_score "python docker".data "python stack".data ∧
    compute_ats_score "python docker".data "python docker stack".data ≤
      compute_ats_score ("python docker".data ++ ' ' :: "stack".data)
        "python docker stack".data :=
  ⟨(claim_C4 "python docker".data "python stack".data "kafka".data).1 (by decide),
   (claim_C4 "python docker".data "python docker stack".data "stack".data).2 (by decide)⟩

end ResumeAnalyzer
